import Mathlib

set_option maxRecDepth 4000

/-!  Verification of the commit-helper change-classification engine.

The Go sources are shallowly embedded: Go `string` values become `List Char`
(the inputs considered are the ASCII strings produced by git porcelain/diff
output), the relevant pieces of the Go standard library
(`strings.Contains`, `strings.Index`, `strings.Fields`, `strings.Split`,
`strings.TrimSpace`, `strings.TrimSuffix`, `filepath.Base`, `filepath.Ext`)
are re-implemented faithfully on character lists, and each engine function
(`parseDiffOutput`, `extractFunctionName`, `determineAdvancedCommitType`,
`generateSmartCommitMessage`, `generateCombinedSuggestion`,
`analyzeChangesForCommits`, `parseCommitMessage`, `parseConventionalCommit`)
is translated statement by statement.  Fallible IO boundaries (running git)
are replaced by explicit data arguments; Go's randomized map iteration order
is made an explicit argument constrained to be a permutation of the map's
entries.  -/

namespace CommitHelper

/-- Go strings, embedded as lists of characters. -/
abbrev Str := List Char

/-- Convert a Lean string literal to the embedded representation. -/
def str (s : String) : Str := s.data

/-- Go `strings.HasPrefix s p`. -/
def strStartsWith : Str → Str → Bool
  | _, [] => true
  | [], _ :: _ => false
  | a :: s, b :: p => a == b && strStartsWith s p

/-- Go `strings.HasSuffix s p`. -/
def strEndsWith (s p : Str) : Bool := strStartsWith s.reverse p.reverse

/-- Go `strings.Index s sub` (first byte index of `sub` in `s`, `none` for -1). -/
def strIndex : Str → Str → Option Nat
  | s, sub =>
    if strStartsWith s sub then some 0
    else match s with
      | [] => none
      | _ :: rest => (strIndex rest sub).map (· + 1)

/-- Go `strings.Contains s sub`. -/
def strContains (s sub : Str) : Bool := (strIndex s sub).isSome

/-- Go `strings.Split s sep` for a one-character separator. -/
def splitChar (sep : Char) : Str → List Str
  | [] => [[]]
  | c :: rest =>
    if c == sep then [] :: splitChar sep rest
    else match splitChar sep rest with
      | [] => [[c]]
      | h :: t => (c :: h) :: t

/-- ASCII white space in the sense of Go's `unicode.IsSpace`. -/
def isGoSpace (c : Char) : Bool :=
  c == ' ' || c == '\t' || c == '\n' || c == '\x0b' || c == '\x0c' || c == '\r'

/-- Worker for `strFields`: `cur` holds the current word, reversed. -/
def fieldsGo : Str → Str → List Str
  | [], cur => if cur.isEmpty then [] else [cur.reverse]
  | c :: rest, cur =>
    if isGoSpace c then
      if cur.isEmpty then fieldsGo rest [] else cur.reverse :: fieldsGo rest []
    else fieldsGo rest (c :: cur)

/-- Go `strings.Fields s`: split around runs of white space. -/
def strFields (s : Str) : List Str := fieldsGo s []

/-- Go `strings.TrimSpace s` (ASCII white space). -/
def strTrimSpace (s : Str) : Str :=
  ((s.dropWhile isGoSpace).reverse.dropWhile isGoSpace).reverse

/-- Go `strings.TrimSuffix s suf`. -/
def trimSuffixStr (s suf : Str) : Str :=
  if strEndsWith s suf then s.take (s.length - suf.length) else s

/-- Go `filepath.Base p`. -/
def goBase (p : Str) : Str :=
  if p.isEmpty then ['.']
  else
    let q := (p.reverse.dropWhile (· == '/')).reverse
    if q.isEmpty then ['/']
    else (q.reverse.takeWhile (fun c => !(c == '/'))).reverse

/-- Worker for `goExt`: scans the reversed path for the last dot of the
final path element. -/
def goExtAux : Str → Str → Str
  | [], _ => []
  | c :: rest, acc =>
    if c == '/' then []
    else if c == '.' then '.' :: acc
    else goExtAux rest (c :: acc)

/-- Go `filepath.Ext p`. -/
def goExt (p : Str) : Str := goExtAux p.reverse []

/-- Go `strings.ToLower` restricted to ASCII. -/
def toLowerStr (s : Str) : Str := s.map Char.toLower

/-- `true` iff the character `c` occurs in `s`. -/
def hasChar (s : Str) (c : Char) : Bool := s.any (fun x => x == c)

/-- Decimal rendering of a natural number (`fmt.Sprintf "%d"`). -/
def natStr (n : Nat) : Str := Nat.toDigits 10 n

/-- Go `abs(a - b)` on int counters, expressed on `Nat`. -/
def absDiff (a b : Nat) : Nat := if a ≥ b then a - b else b - a

end CommitHelper

namespace CommitHelper

/-- `GitChange` from the source: one `git status --porcelain` entry. -/
structure GitChange where
  File : Str
  Status : Str
deriving DecidableEq

/-- `DiffInfo` from the source (the spec's `DiffFacts`).  `HasTests` and
`HasDocs` are declared in the source but never assigned by
`parseDiffOutput`; they keep their zero value. -/
structure DiffInfo where
  LinesAdded : Nat
  LinesRemoved : Nat
  Functions : List Str
  Imports : List Str
  HasTests : Bool
  HasDocs : Bool
deriving DecidableEq

/-- The zero value `DiffInfo\x7b\x7d`. -/
def initDiffInfo : DiffInfo := ⟨0, 0, [], [], false, false⟩

/-- `CommitSuggestion` from the source (presentation-only methods omitted). -/
structure CommitSuggestion where
  Message : Str
  «Type» : Str
deriving DecidableEq

/-- `FileAnalysis` from the source. -/
structure FileAnalysis where
  «Type» : Str
  Message : Str
  Scope : Str
deriving DecidableEq

/-- `extractFunctionName`, keyword step: find `kw`, split the tail into
fields, and return the token after the keyword if there is one.  Mirrors the
fall-through structure of the Go code (`if idx != -1 ... if len(parts) > 1`). -/
def extractViaKeyword (line kw : Str) : Option Str :=
  match strIndex line kw with
  | some idx =>
    match strFields (line.drop idx) with
    | _ :: name :: _ => some name
    | _ => none
  | none => none

/-- `extractFunctionName` from the source: `func ` names have a trailing
parameter list stripped; `function ` and `def ` names are returned verbatim;
anything else (including `class `) yields the empty string. -/
def extractFunctionName (line : Str) : Str :=
  match extractViaKeyword line (str "func ") with
  | some name =>
    (match strIndex name (str "(") with
     | some p => name.take p
     | none => name)
  | none =>
    match extractViaKeyword line (str "function ") with
    | some name => name
    | none =>
      match extractViaKeyword line (str "def ") with
      | some name => name
      | none => []

/-- Function-detection step of `parseDiffOutput` for one addition line. -/
def addFunctions (info : DiffInfo) (line : Str) : DiffInfo :=
  if strContains line (str "func ") || strContains line (str "function ") ||
     strContains line (str "def ") || strContains line (str "class ") then
    if extractFunctionName line ≠ [] then
      { info with Functions := info.Functions ++ [extractFunctionName line] }
    else info
  else info

/-- Import-detection step of `parseDiffOutput` for one addition line. -/
def addImports (info : DiffInfo) (line : Str) : DiffInfo :=
  if strContains line (str "import ") || strContains line (str "#include") ||
     strContains line (str "from ") then
    { info with Imports := info.Imports ++ [strTrimSpace line] }
  else info

/-- One loop iteration of `parseDiffOutput`. -/
def processDiffLine (info : DiffInfo) (line : Str) : DiffInfo :=
  if strStartsWith line (str "+") && !strStartsWith line (str "+++") then
    addImports (addFunctions { info with LinesAdded := info.LinesAdded + 1 } line) line
  else if strStartsWith line (str "-") && !strStartsWith line (str "---") then
    { info with LinesRemoved := info.LinesRemoved + 1 }
  else info

/-- `parseDiffOutput` from the source: scan the diff line by line. -/
def parseDiffOutput (diff : Str) : DiffInfo :=
  (splitChar '\n' diff).foldl processDiffLine initDiffInfo

/-- `containsBugFixKeywords` from the source. -/
def containsBugFixKeywords (diff : DiffInfo) : Bool :=
  diff.LinesRemoved > 0 && diff.LinesAdded < diff.LinesRemoved

/-- `determineAdvancedCommitType` from the source: ordered rule set mapping
`(file, status, diff)` to a conventional-commit type. -/
def determineAdvancedCommitType (file status : Str) (diff : DiffInfo) : Str :=
  let fileName := goBase file
  if strContains status (str "A") then
    if strContains file (str "test") || strEndsWith file (str "_test.go") then str "test"
    else if strEndsWith file (str ".md") || strContains file (str "README") then str "docs"
    else if diff.Functions.length > 0 then str "feat"
    else str "feat"
  else if strContains status (str "D") then str "chore"
  else if strContains status (str "M") then
    if strEndsWith file (str ".md") || strContains file (str "README") ||
       strContains file (str "doc") then str "docs"
    else if strContains file (str "test") || strEndsWith file (str "_test.go") ||
       strEndsWith file (str ".test.js") then str "test"
    else if strContains file (str "config") || strEndsWith file (str ".json") ||
       strEndsWith file (str ".yaml") || strEndsWith file (str ".yml") ||
       strEndsWith file (str ".toml") || fileName = str "Dockerfile" ||
       fileName = str "Makefile" || strEndsWith file (str ".env") then str "chore"
    else if fileName = str "package.json" || fileName = str "go.mod" ||
       fileName = str "requirements.txt" || fileName = str "Cargo.toml" ||
       fileName = str "pom.xml" then
      if diff.Imports.length > 0 then str "feat" else str "chore"
    else if containsBugFixKeywords diff then str "fix"
    else if diff.Functions.length > 0 || diff.LinesAdded > diff.LinesRemoved * 2 then
      str "feat"
    else if diff.LinesAdded > 0 && diff.LinesRemoved > 0 &&
       absDiff diff.LinesAdded diff.LinesRemoved < 10 then str "refactor"
    else if diff.LinesAdded + diff.LinesRemoved < 10 then str "fix"
    else str "feat"
  else str "chore"

/-- `generateSmartCommitMessage` from the source: per-status message
composition; the `switch status` is an exact-equality dispatch. -/
def generateSmartCommitMessage (file status : Str) (diff : DiffInfo)
    (commitType : Str) : Str :=
  let fileName := goBase file
  let fileExt := goExt file
  let baseName := trimSuffixStr fileName fileExt
  if status = str "A" then
    if diff.Functions.length > 0 ∧ diff.Functions.length = 1 then
      str "add " ++ diff.Functions.headD [] ++ str " function"
    else str "add " ++ fileName
  else if status = str "D" then
    str "remove " ++ fileName
  else if status = str "M" then
    if commitType = str "docs" then str "update " ++ baseName
    else if commitType = str "test" then str "update " ++ baseName ++ str " tests"
    else if diff.Functions.length > 0 ∧ diff.Functions.length = 1 then
      str "update " ++ diff.Functions.headD [] ++ str " function"
    else str "update " ++ baseName
  else
    str "modify " ++ fileName

/-- `determineScope` from the source. -/
def determineScope (file : Str) : Str :=
  let parts := splitChar '/' file
  if parts.length > 1 then
    let firstDir := parts.headD []
    if firstDir = str "src" ∨ firstDir = str "lib" then
      if parts.length > 2 then parts.getD 1 [] else str "core"
    else if firstDir = str "tests" ∨ firstDir = str "test" then str "test"
    else if firstDir = str "docs" ∨ firstDir = str "documentation" then str "docs"
    else if firstDir = str "config" ∨ firstDir = str "configs" then str "config"
    else if firstDir = str "api" then str "api"
    else if firstDir = str "ui" ∨ firstDir = str "frontend" ∨ firstDir = str "client" then
      str "ui"
    else if firstDir = str "backend" ∨ firstDir = str "server" then str "api"
    else if firstDir = str "scripts" ∨ firstDir = str "tools" then str "tools"
    else firstDir
  else
    let fileName := goBase file
    if strContains fileName (str "test") then str "test"
    else if strEndsWith fileName (str ".md") then str "docs"
    else if strContains fileName (str "config") then str "config"
    else []

/-- `analyzeFileChange` from the source. -/
def analyzeFileChange (change : GitChange) (diff : DiffInfo) : FileAnalysis :=
  { «Type» := determineAdvancedCommitType change.File change.Status diff
    Message := generateSmartCommitMessage change.File change.Status diff
      (determineAdvancedCommitType change.File change.Status diff)
    Scope := determineScope change.File }

/-- The `typeCounts` map of `generateCombinedSuggestion`, represented as an
association list in first-insertion order: increment the count of a key. -/
def tallyInc : List (Str × Nat) → Str → List (Str × Nat)
  | [], t => [(t, 1)]
  | (k, c) :: rest, t =>
    if k = t then (k, c + 1) :: rest else (k, c) :: tallyInc rest t

/-- The contents of the `typeCounts` map after tallying all suggestions. -/
def tally (l : List CommitSuggestion) : List (Str × Nat) :=
  l.foldl (fun acc s => tallyInc acc s.«Type») []

/-- The most-common-type loop of `generateCombinedSuggestion`, run over one
enumeration `order` of the `typeCounts` map (Go map iteration order is
arbitrary, so the enumeration is an explicit argument). -/
def findMainLoop : List (Str × Nat) → Str → Nat → Str × Nat
  | [], m, c => (m, c)
  | (t, k) :: rest, m, c =>
    if k > c then findMainLoop rest t k else findMainLoop rest m c

/-- The `mainType` selected by `generateCombinedSuggestion` when the
`typeCounts` map is enumerated in order `order`. -/
def findMainType (order : List (Str × Nat)) : Str :=
  (findMainLoop order [] 0).1

/-- The `switch mainType` message table of `generateCombinedSuggestion`. -/
def commitPhrase (mainType : Str) : Str :=
  if mainType = str "feat" then str "add features"
  else if mainType = str "fix" then str "fix issues"
  else if mainType = str "docs" then str "update docs"
  else if mainType = str "test" then str "update tests"
  else if mainType = str "chore" then str "update config"
  else if mainType = str "refactor" then str "refactor code"
  else str "update files"

/-- `generateCombinedSuggestion` from the source (the unused `grouped`
argument is always `nil` at the call site and is dropped).  `order` is the
iteration order of the `typeCounts` map; a faithful run requires `order` to
be a permutation of `tally individual`. -/
def generateCombinedSuggestionOrd (individual : List CommitSuggestion)
    (order : List (Str × Nat)) : CommitSuggestion :=
  if individual.length = 0 then ⟨[], []⟩
  else
    let mainType := findMainType order
    let totalFiles := individual.length
    let message :=
      if order.length = 1 then commitPhrase mainType
      else str "update multiple files"
    let message :=
      if totalFiles > 1 then
        message ++ str " (" ++ natStr totalFiles ++ str " files)"
      else message
    ⟨message, mainType⟩

/-- The per-file suggestion list built by the first loop of
`analyzeChangesForCommits`; the `getFileDiff` git invocation is replaced by
the `DiffInfo` supplied with each change. -/
def individualsOf (inputs : List (GitChange × DiffInfo)) : List CommitSuggestion :=
  inputs.map (fun p =>
    { «Type» := (analyzeFileChange p.1 p.2).«Type»
      Message := (analyzeFileChange p.1 p.2).Message })

/-- `analyzeChangesForCommits` from the source: combined suggestion first
(when its message is non-empty), individual suggestions only for at most 3
files, capped at 5 suggestions. -/
def analyzeChangesForCommits (inputs : List (GitChange × DiffInfo))
    (order : List (Str × Nat)) : List CommitSuggestion :=
  let ind := individualsOf inputs
  let combined := generateCombinedSuggestionOrd ind order
  let suggestions := if combined.Message = [] then [] else [combined]
  let suggestions := if ind.length ≤ 3 then suggestions ++ ind else suggestions
  if suggestions.length > 5 then suggestions.take 5 else suggestions

end CommitHelper

namespace CommitHelper

/-- `[a-zA-Z]` of the conventional-commit regular expression. -/
def isAlphaB (c : Char) : Bool :=
  ('a' ≤ c && c ≤ 'z') || ('A' ≤ c && c ≤ 'Z')

/-- Perl class white space of the regular expression (the characters matched
by an RE2 backslash-s). -/
def isSpaceRe (c : Char) : Bool :=
  c == ' ' || c == '\t' || c == '\n' || c == '\x0c' || c == '\r'

/-- Tail of the regular expression after the colon: greedy white-space run,
then a non-empty newline-free remainder reaching the end of the text (the
dot of RE2 does not match a newline, and the match is anchored). -/
def subjMatch (r : Str) : Option Str :=
  let w := r.takeWhile isSpaceRe
  let rest := r.dropWhile isSpaceRe
  if !rest.isEmpty then
    if hasChar rest '\n' then none else some rest
  else
    match w.getLast? with
    | some c => if c == '\n' then none else some [c]
    | none => none

/-- Continuation of the regular-expression match after the optional scope
group: white space, then the mandatory colon, then the subject. -/
def afterScope (t sc r : Str) : Option (Str × Str × Str) :=
  match r.dropWhile isSpaceRe with
  | c :: r6 => if c = ':' then (subjMatch r6).map (fun su => (t, sc, su)) else none
  | [] => none

/-- The anchored match of `([a-zA-Z]+)(\(([^)]+)\))?\s*:\s*(.+)` against a
whole subject line, returning the three capture groups (the scope group is
empty when absent, as Go reports unmatched groups). -/
def reMatch (s : Str) : Option (Str × Str × Str) :=
  let t := s.takeWhile isAlphaB
  let r1 := s.dropWhile isAlphaB
  if t.isEmpty then none
  else
    match r1 with
    | c :: r2 =>
      if c = '(' then
        let sc := r2.takeWhile (fun x => !(x == ')'))
        let r3 := r2.dropWhile (fun x => !(x == ')'))
        match r3 with
        | c2 :: r4 =>
          if c2 = ')' then (if sc.isEmpty then none else afterScope t sc r4) else none
        | [] => none
      else afterScope t [] r1
    | [] => afterScope t [] r1

/-- `parseCommitMessage` from the source (`main.go`): regular-expression
parse with a keyword-guess fallback. -/
def parseCommitMessage (message : Str) : Str × Str × Str :=
  match reMatch message with
  | some r => r
  | none =>
    let lower := toLowerStr message
    let commitType :=
      if strContains lower (str "fix") then str "fix"
      else if strContains lower (str "add") || strContains lower (str "feat") then
        str "feat"
      else if strContains lower (str "doc") then str "docs"
      else str "chore"
    (commitType, [], message)

/-- The fields of `Commit` that `parseConventionalCommit` reads or writes. -/
structure ParsedCommit where
  «Type» : Str
  Scope : Str
  Subject : Str
  Breaking : Bool
deriving DecidableEq

/-- `guessCommitType` from the source (`main.go`). -/
def guessCommitType (subject : Str) : Str :=
  let s := toLowerStr subject
  if strContains s (str "fix") || strContains s (str "bug") then str "fix"
  else if strContains s (str "feat") || strContains s (str "add") then str "feat"
  else if strContains s (str "doc") then str "docs"
  else if strContains s (str "test") then str "test"
  else if strContains s (str "refactor") then str "refactor"
  else if strContains s (str "style") || strContains s (str "format") then str "style"
  else if strContains s (str "perf") || strContains s (str "performance") then str "perf"
  else str "chore"

/-- `parseConventionalCommit` from the source (`main.go`): fills the parse
fields of a freshly scanned commit whose `Breaking` flag starts at its zero
value `false`. -/
def parseConventionalCommit (subject body : Str) : ParsedCommit :=
  match reMatch subject with
  | some (t, sc, su) =>
    { «Type» := t, Scope := sc, Subject := su
      Breaking := strContains (toLowerStr su) (str "breaking") ||
        strContains (toLowerStr body) (str "breaking change") }
  | none =>
    { «Type» := guessCommitType subject, Scope := [], Subject := subject
      Breaking := false }

/-- The maximum count in a `typeCounts` enumeration. -/
def maxCountOf (ks : List (Str × Nat)) : Nat :=
  ks.foldr (fun p m => max p.2 m) 0

/-- Ten modified files whose diffs are pure removals: each is classified
`fix` (test input for the aggregation-cap property). -/
def tenFixChanges : List (GitChange × DiffInfo) :=
  List.replicate 10 (⟨str "a.txt", str "M"⟩, ⟨0, 1, [], [], false, false⟩)

/-- A single `fix`-classified change (witness input). -/
def oneFixChange : List (GitChange × DiffInfo) :=
  [(⟨str "a.txt", str "M"⟩, ⟨0, 1, [], [], false, false⟩)]

end CommitHelper

namespace CommitHelper

end CommitHelper

namespace CommitHelper

/-- Claim C1 (corrected): a newly added file (status containing `A`) with no
detected functions is classified `feat` provided its path carries no test
marker and no documentation marker.  The original claim's "regardless of the
file's path" fails: test-marked and doc-marked paths win first (see the
counterexample). -/
theorem newFile_noFn_feat (file status : Str) (diff : DiffInfo)
    (hA : strContains status (str "A") = true)
    (hfn : diff.Functions = [])
    (ht : strContains file (str "test") = false)
    (htg : strEndsWith file (str "_test.go") = false)
    (hmd : strEndsWith file (str ".md") = false)
    (hrd : strContains file (str "README") = false) :
    determineAdvancedCommitType file status diff = str "feat" := by
  simp [determineAdvancedCommitType, hA, hfn, ht, htg, hmd, hrd]

/-- Witness for C1: a plain added source file is classified `feat`. -/
theorem newFile_noFn_feat_witness :
    determineAdvancedCommitType (str "main.go") (str "A") initDiffInfo = str "feat" :=
  newFile_noFn_feat (str "main.go") (str "A") initDiffInfo (by decide) (by decide)
    (by decide) (by decide) (by decide) (by decide)

/-- Counterexample for C1 as stated: the added file `btest.c` has zero
detected functions but is classified `test`, not `feat`, because its path
contains `test`. -/
theorem newFile_testPath_cex :
    strContains (str "A") (str "A") = true ∧
    initDiffInfo.Functions.length = 0 ∧
    determineAdvancedCommitType (str "btest.c") (str "A") initDiffInfo = str "test" ∧
    str "test" ≠ str "feat" := by decide

/-- Claim C2 (corrected): a status containing `D` but not `A` is classified
`chore`, and a file whose status is exactly `D` gets the message
`remove <filename>`.  For a status containing both `A` and `D` the
added-file branch wins the classification, and for any status other than
the exact strings `A`/`D`/`M` the composer falls to `modify <filename>`
(see the counterexample). -/
theorem deleted_chore_remove :
    (∀ (file status : Str) (diff : DiffInfo),
       strContains status (str "D") = true →
       strContains status (str "A") = false →
       determineAdvancedCommitType file status diff = str "chore") ∧
    (∀ (file : Str) (diff : DiffInfo) (commitType : Str),
       generateSmartCommitMessage file (str "D") diff commitType =
         str "remove " ++ goBase file) := by
  constructor
  · intro file status diff hD hA
    simp [determineAdvancedCommitType, hD, hA]
  · intro file diff commitType
    have h1 : ¬ (str "D" = str "A") := by decide
    simp [generateSmartCommitMessage, h1]

/-- Witness for C2: status `MD` classifies as `chore`; status `D` composes
`remove a.txt`. -/
theorem deleted_chore_remove_witness :
    determineAdvancedCommitType (str "a.txt") (str "MD") initDiffInfo = str "chore" ∧
    generateSmartCommitMessage (str "a.txt") (str "D") initDiffInfo (str "chore") =
      str "remove " ++ goBase (str "a.txt") :=
  ⟨deleted_chore_remove.1 (str "a.txt") (str "MD") initDiffInfo (by decide) (by decide),
   deleted_chore_remove.2 (str "a.txt") initDiffInfo (str "chore")⟩

/-- Counterexample for C2 as stated: the porcelain status `AD` contains `D`,
yet the classifier returns `feat` (the `A` branch is checked first) and the
composer returns `modify a.txt`, not `remove a.txt`. -/
theorem deleted_status_AD_cex :
    strContains (str "AD") (str "D") = true ∧
    determineAdvancedCommitType (str "a.txt") (str "AD") initDiffInfo = str "feat" ∧
    generateSmartCommitMessage (str "a.txt") (str "AD") initDiffInfo
      (determineAdvancedCommitType (str "a.txt") (str "AD") initDiffInfo) =
      str "modify a.txt" ∧
    str "feat" ≠ str "chore" ∧
    str "modify a.txt" ≠ str "remove a.txt" := by decide

/-- Claim C9 (confirmed): parsing `feat(auth): add login` (with an empty
body) yields type `feat`, scope `auth`, subject `add login`, and
`breaking = false`. -/
theorem parse_feat_auth_login :
    parseConventionalCommit (str "feat(auth): add login") [] =
      ⟨str "feat", str "auth", str "add login", false⟩ := by decide

/-- Claim C10 (confirmed): an untracked file (status `??`) is classified
`chore` and composed as `modify <filename>` for every path, diff and commit
type: untracked files never reach the newly-added branch. -/
theorem untracked_chore_modify (file : Str) (diff : DiffInfo) (commitType : Str) :
    determineAdvancedCommitType file (str "??") diff = str "chore" ∧
    generateSmartCommitMessage file (str "??") diff commitType =
      str "modify " ++ goBase file := by
  have hA : strContains (str "??") (str "A") = false := by decide
  have hD : strContains (str "??") (str "D") = false := by decide
  have hM : strContains (str "??") (str "M") = false := by decide
  have h1 : ¬ (str "??" = str "A") := by decide
  have h2 : ¬ (str "??" = str "D") := by decide
  have h3 : ¬ (str "??" = str "M") := by decide
  exact ⟨by simp [determineAdvancedCommitType, hA, hD, hM],
    by simp [generateSmartCommitMessage, h1, h2, h3]⟩

end CommitHelper

namespace CommitHelper

/-- The import step never touches the added-line counter or the detected
functions. -/
theorem addImports_keeps (info : DiffInfo) (line : Str) :
    (addImports info line).LinesAdded = info.LinesAdded ∧
    (addImports info line).Functions = info.Functions := by
  unfold addImports
  split <;> simp

/-- The function step never touches the added-line counter and appends at
most one name. -/
theorem addFunctions_keeps (info : DiffInfo) (line : Str) :
    (addFunctions info line).LinesAdded = info.LinesAdded ∧
    (addFunctions info line).Functions.length ≤ info.Functions.length + 1 := by
  unfold addFunctions
  split
  · split <;> simp
  · simp

/-- One diff line preserves `Functions.length ≤ LinesAdded`. -/
theorem processDiffLine_inv (info : DiffInfo) (line : Str)
    (h : info.Functions.length ≤ info.LinesAdded) :
    (processDiffLine info line).Functions.length ≤
      (processDiffLine info line).LinesAdded := by
  unfold processDiffLine
  split
  · have h1 := addFunctions_keeps { info with LinesAdded := info.LinesAdded + 1 } line
    have h2 := addImports_keeps
      (addFunctions { info with LinesAdded := info.LinesAdded + 1 } line) line
    rw [h2.1, h2.2, h1.1]
    have := h1.2
    simp only at this ⊢
    omega
  · split
    · simpa using h
    · simpa using h

/-- The diff scan preserves `Functions.length ≤ LinesAdded` from any start. -/
theorem foldl_diff_inv (lines : List Str) :
    ∀ info : DiffInfo, info.Functions.length ≤ info.LinesAdded →
      (lines.foldl processDiffLine info).Functions.length ≤
        (lines.foldl processDiffLine info).LinesAdded := by
  induction lines with
  | nil => intro info h; simpa using h
  | cons l ls ih => intro info h; exact ih _ (processDiffLine_inv info l h)

/-- Claim C6 (corrected): contrary to the claim, the Diff Analyzer does
guarantee `linesAdded ≥ len(functionNames)`: every recorded function name
comes from an addition line that also increments the added-line counter, and
each line records at most one name even when it matches several keyword
heuristics. -/
theorem linesAdded_ge_functions (diff : Str) :
    (parseDiffOutput diff).Functions.length ≤ (parseDiffOutput diff).LinesAdded :=
  foldl_diff_inv (splitChar '\n' diff) initDiffInfo (by decide)

/-- Counterexample for C6 as stated: no diff text makes the number of
detected function names exceed the number of added lines. -/
theorem functions_never_exceed_cex :
    ¬ ∃ diff : Str, (parseDiffOutput diff).LinesAdded <
        (parseDiffOutput diff).Functions.length := by
  rintro ⟨diff, h⟩
  have := foldl_diff_inv (splitChar '\n' diff) initDiffInfo (by decide)
  exact absurd this (by simpa [parseDiffOutput] using Nat.not_le_of_lt h)

/-- Claim C7 (corrected): on an added declaration line, only a `func `
declaration has the parameter-list opener stripped from the extracted token;
`function ` and `def ` declarations yield the whitespace-delimited token
following the keyword verbatim, and a line matching only `class ` yields no
name at all. -/
theorem extract_name_by_keyword (line tok : Str) :
    (∀ (w : Str) (i : Nat) (rest : List Str),
       strIndex line (str "func ") = some i →
       strFields (line.drop i) = w :: tok :: rest →
       extractFunctionName line =
         (match strIndex tok (str "(") with
          | some p => tok.take p
          | none => tok)) ∧
    (strIndex line (str "func ") = none →
     ∀ (w : Str) (i : Nat) (rest : List Str),
       strIndex line (str "function ") = some i →
       strFields (line.drop i) = w :: tok :: rest →
       extractFunctionName line = tok) ∧
    (strIndex line (str "func ") = none →
     strIndex line (str "function ") = none →
     ∀ (w : Str) (i : Nat) (rest : List Str),
       strIndex line (str "def ") = some i →
       strFields (line.drop i) = w :: tok :: rest →
       extractFunctionName line = tok) ∧
    (strIndex line (str "func ") = none →
     strIndex line (str "function ") = none →
     strIndex line (str "def ") = none →
     extractFunctionName line = []) := by
  refine ⟨?_, ?_, ?_, ?_⟩
  · intro w i rest h1 h2
    simp [extractFunctionName, extractViaKeyword, h1, h2]
  · intro h0 w i rest h1 h2
    simp [extractFunctionName, extractViaKeyword, h0, h1, h2]
  · intro h0 h0f w i rest h1 h2
    simp [extractFunctionName, extractViaKeyword, h0, h0f, h1, h2]
  · intro h0 h0f h0d
    simp [extractFunctionName, extractViaKeyword, h0, h0f, h0d]

/-- Witness for C7: a Go `func` line is stripped at the parameter list, a
JavaScript `function` line is not. -/
theorem extract_name_by_keyword_witness :
    extractFunctionName (str "+func foo(x) int") = str "foo" ∧
    extractFunctionName (str "+function handleClick(event) begin") =
      str "handleClick(event)" := by
  constructor
  · have h := (extract_name_by_keyword (str "+func foo(x) int") (str "foo(x)")).1
      (str "func") 1 [str "int"] (by decide) (by decide)
    rw [h]; decide
  · exact (extract_name_by_keyword (str "+function handleClick(event) begin")
      (str "handleClick(event)")).2.1 (by decide) (str "function") 1 [str "begin"]
      (by decide) (by decide)

/-- Counterexample for C7 as stated: a `function` declaration keeps its
parameter-list opener (nothing is stripped), and a `class` declaration line
is matched by the Diff Analyzer yet records no name at all. -/
theorem function_no_strip_cex :
    (parseDiffOutput (str "+function handleClick(event) begin")).Functions =
      [str "handleClick(event)"] ∧
    str "handleClick(event)" ≠ str "handleClick" ∧
    strContains (str "+class Foo:") (str "class ") = true ∧
    (parseDiffOutput (str "+class Foo:")).Functions = [] := by decide

end CommitHelper

namespace CommitHelper

/-- Every branch of the combined-message type table is a non-empty phrase. -/
theorem commitPhrase_ne_nil (t : Str) : commitPhrase t ≠ [] := by
  unfold commitPhrase
  repeat' split
  all_goals decide

/-- For a non-empty changeset the combined suggestion's message is never
empty (so the combined suggestion is always emitted). -/
theorem combined_message_ne_nil (individual : List CommitSuggestion)
    (order : List (Str × Nat)) (h : individual ≠ []) :
    (generateCombinedSuggestionOrd individual order).Message ≠ [] := by
  have hl : individual.length ≠ 0 := by
    simpa using fun hh => h (List.length_eq_zero.mp hh)
  unfold generateCombinedSuggestionOrd
  rw [if_neg hl]
  dsimp only
  split
  · intro hcon
    rcases List.append_eq_nil.mp hcon with ⟨-, hnil⟩
    exact (by decide : str " files)" ≠ []) hnil
  · split
    · exact commitPhrase_ne_nil _
    · decide

/-- Claim C3 (confirmed): the aggregator output starts with the combined
suggestion whenever the changeset is non-empty, includes the per-file
suggestions exactly when there are at most 3 files, never exceeds 5
suggestions, and for 10 files all classified `fix` emits exactly the one
combined suggestion `fix issues (10 files)`. -/
theorem aggregator_retention (inputs : List (GitChange × DiffInfo))
    (order : List (Str × Nat)) :
    (inputs ≠ [] →
       analyzeChangesForCommits inputs order =
         generateCombinedSuggestionOrd (individualsOf inputs) order ::
           (if inputs.length ≤ 3 then individualsOf inputs else [])) ∧
    (analyzeChangesForCommits inputs order).length ≤ 5 ∧
    analyzeChangesForCommits tenFixChanges [(str "fix", 10)] =
      [⟨str "fix issues (10 files)", str "fix"⟩] ∧
    tally (individualsOf tenFixChanges) = [(str "fix", 10)] := by
  have hlen : (individualsOf inputs).length = inputs.length := by
    simp [individualsOf]
  have hmain : inputs ≠ [] →
      analyzeChangesForCommits inputs order =
        generateCombinedSuggestionOrd (individualsOf inputs) order ::
          (if inputs.length ≤ 3 then individualsOf inputs else []) := by
    intro hne
    have hind : individualsOf inputs ≠ [] := by
      simpa [individualsOf] using hne
    have hmsg := combined_message_ne_nil (individualsOf inputs) order hind
    unfold analyzeChangesForCommits
    simp only [hlen]
    rw [if_neg hmsg]
    by_cases h3 : inputs.length ≤ 3
    · rw [if_pos h3, if_pos h3, List.singleton_append]
      rw [if_neg]
      simp only [List.length_cons, hlen]
      omega
    · rw [if_neg h3, if_neg h3]
      rw [if_neg (by simp)]
  refine ⟨hmain, ?_, by decide, by decide⟩
  by_cases hne : inputs = []
  · subst hne
    simp [analyzeChangesForCommits, individualsOf, generateCombinedSuggestionOrd]
  · rw [hmain hne]
    by_cases h3 : inputs.length ≤ 3
    · rw [if_pos h3]
      simp only [List.length_cons, hlen]
      omega
    · rw [if_neg h3]
      simp

/-- Witness for C3: a one-file changeset yields the combined suggestion
followed by the single individual suggestion. -/
theorem aggregator_retention_witness :
    analyzeChangesForCommits oneFixChange (tally (individualsOf oneFixChange)) =
      generateCombinedSuggestionOrd (individualsOf oneFixChange)
          (tally (individualsOf oneFixChange)) ::
        (if oneFixChange.length ≤ 3 then individualsOf oneFixChange else []) :=
  (aggregator_retention oneFixChange (tally (individualsOf oneFixChange))).1 (by decide)

end CommitHelper

namespace CommitHelper

/-- Tallying a run of suggestions that all share type `t` onto a pure-`t`
accumulator adds the run length to the count. -/
theorem tallyInc_all (t : Str) : ∀ (l : List CommitSuggestion) (n : Nat),
    (∀ s ∈ l, s.«Type» = t) →
    l.foldl (fun acc s => tallyInc acc s.«Type») [(t, n)] = [(t, n + l.length)] := by
  intro l
  induction l with
  | nil => intro n _; simp
  | cons x l ih =>
    intro n hall
    have hx : x.«Type» = t := hall x (by simp)
    have hrest : ∀ s ∈ l, s.«Type» = t := fun s hs => hall s (by simp [hs])
    simp only [List.foldl_cons, hx]
    have h1 : tallyInc [(t, n)] t = [(t, n + 1)] := by simp [tallyInc]
    rw [h1, ih (n + 1) hrest, List.length_cons]
    have e : n + 1 + l.length = n + (l.length + 1) := by omega
    rw [e]

/-- When every suggestion has type `t`, the `typeCounts` map is the single
entry `(t, count)`. -/
theorem tally_all (l : List CommitSuggestion) (t : Str)
    (hall : ∀ s ∈ l, s.«Type» = t) (hne : l ≠ []) :
    tally l = [(t, l.length)] := by
  match l with
  | [] => exact absurd rfl hne
  | x :: l =>
    have hx : x.«Type» = t := hall x (by simp)
    have hrest : ∀ s ∈ l, s.«Type» = t := fun s hs => hall s (by simp [hs])
    unfold tally
    simp only [List.foldl_cons, hx]
    have h0 : tallyInc [] t = [(t, 1)] := rfl
    rw [h0, tallyInc_all t l 1 hrest, List.length_cons]
    have e : 1 + l.length = l.length + 1 := by omega
    rw [e]

/-- Incrementing a tally preserves the presence of every key. -/
theorem tallyInc_keeps_key (acc : List (Str × Nat)) (u t : Str)
    (h : ∃ c, (t, c) ∈ acc) : ∃ c, (t, c) ∈ tallyInc acc u := by
  induction acc with
  | nil => simp at h
  | cons p rest ih =>
    obtain ⟨k, c0⟩ := p
    obtain ⟨c, hc⟩ := h
    by_cases hk : k = u
    · subst hk
      rcases List.mem_cons.mp hc with heq | hmem
      · injection heq with ht hc0
        subst ht
        exact ⟨c0 + 1, by simp [tallyInc]⟩
      · exact ⟨c, by simp [tallyInc, hmem]⟩
    · rcases List.mem_cons.mp hc with heq | hmem
      · exact ⟨c, by simp only [tallyInc, if_neg hk]; exact List.mem_cons.mpr (Or.inl heq)⟩
      · obtain ⟨c2, hc2⟩ := ih ⟨c, hmem⟩
        exact ⟨c2, by simp only [tallyInc, if_neg hk]; exact List.mem_cons.mpr (Or.inr hc2)⟩

/-- Incrementing a tally at key `u` makes `u` present. -/
theorem tallyInc_self_key (acc : List (Str × Nat)) (u : Str) :
    ∃ c, (u, c) ∈ tallyInc acc u := by
  induction acc with
  | nil => exact ⟨1, by simp [tallyInc]⟩
  | cons p rest ih =>
    obtain ⟨k, c0⟩ := p
    by_cases hk : k = u
    · subst hk
      exact ⟨c0 + 1, by simp [tallyInc]⟩
    · obtain ⟨c, hc⟩ := ih
      exact ⟨c, by simp only [tallyInc, if_neg hk]; exact List.mem_cons.mpr (Or.inr hc)⟩

/-- Folding more suggestions onto a tally preserves the presence of keys. -/
theorem foldl_keeps_key (l : List CommitSuggestion) :
    ∀ (acc : List (Str × Nat)) (t : Str), (∃ c, (t, c) ∈ acc) →
      ∃ c, (t, c) ∈ l.foldl (fun a s => tallyInc a s.«Type») acc := by
  induction l with
  | nil => intro acc t h; simpa using h
  | cons y l ih =>
    intro acc t h
    exact ih _ t (tallyInc_keeps_key acc y.«Type» t h)

/-- Worker for `type_mem_tally`, generalized over the accumulator. -/
theorem type_mem_tally_aux (l : List CommitSuggestion) :
    ∀ (acc : List (Str × Nat)) (x : CommitSuggestion), x ∈ l →
      ∃ c, (x.«Type», c) ∈ l.foldl (fun a s => tallyInc a s.«Type») acc := by
  induction l with
  | nil => intro acc x hx; simp at hx
  | cons y l ih =>
    intro acc x hx
    rcases List.mem_cons.mp hx with heq | hmem
    · subst heq
      simp only [List.foldl_cons]
      exact foldl_keeps_key l _ _ (tallyInc_self_key acc x.«Type»)
    · simp only [List.foldl_cons]
      exact ih _ x hmem

/-- Every suggestion's type appears as a key of the `typeCounts` map. -/
theorem type_mem_tally (l : List CommitSuggestion) (x : CommitSuggestion)
    (hx : x ∈ l) : ∃ c, (x.«Type», c) ∈ tally l :=
  type_mem_tally_aux l [] x hx

/-- Two distinct keys force at least two entries. -/
theorem two_keys_length (ks : List (Str × Nat)) (t1 t2 : Str) (c1 c2 : Nat)
    (h1 : (t1, c1) ∈ ks) (h2 : (t2, c2) ∈ ks) (hne : t1 ≠ t2) :
    2 ≤ ks.length := by
  match ks with
  | [] => simp at h1
  | [p] =>
    have e1 : (t1, c1) = p := List.mem_singleton.mp h1
    have e2 : (t2, c2) = p := List.mem_singleton.mp h2
    exact absurd (congrArg Prod.fst (e1.trans e2.symm)) hne
  | p :: q :: r =>
    simp only [List.length_cons]
    omega

end CommitHelper

namespace CommitHelper

/-- Claim C4 (confirmed): for a non-empty changeset and any enumeration
`order` of the `typeCounts` map, the combined message is the fixed per-type
phrase (`add features` for feat, `fix issues` for fix, `update docs` for
docs, `update tests` for test, `update config` for chore, `refactor code`
for refactor, `update files` otherwise) when every change shares one type,
and `update multiple files` when types are mixed, with ` (<N> files)`
appended exactly when more than one file is involved. -/
theorem combined_message_phrase (individual : List CommitSuggestion)
    (order : List (Str × Nat)) (t : Str)
    (hne : individual ≠ [])
    (hord : order.Perm (tally individual)) :
    ((∀ s ∈ individual, s.«Type» = t) →
       (generateCombinedSuggestionOrd individual order).Message =
         (if t = str "feat" then str "add features"
          else if t = str "fix" then str "fix issues"
          else if t = str "docs" then str "update docs"
          else if t = str "test" then str "update tests"
          else if t = str "chore" then str "update config"
          else if t = str "refactor" then str "refactor code"
          else str "update files") ++
         (if individual.length > 1 then
            str " (" ++ natStr individual.length ++ str " files)"
          else [])) ∧
    ((∃ s1 ∈ individual, ∃ s2 ∈ individual, s1.«Type» ≠ s2.«Type») →
       (generateCombinedSuggestionOrd individual order).Message =
         str "update multiple files" ++
         (if individual.length > 1 then
            str " (" ++ natStr individual.length ++ str " files)"
          else [])) := by
  have hl : individual.length ≠ 0 := by
    simpa using fun hh => hne (List.length_eq_zero.mp hh)
  constructor
  · intro hall
    have htl : tally individual = [(t, individual.length)] :=
      tally_all individual t hall hne
    have hordr : order = [(t, individual.length)] := by
      rw [htl] at hord
      exact List.perm_singleton.mp hord
    have hpos : 0 < individual.length := Nat.pos_of_ne_zero hl
    have horder1 : order.length = 1 := by rw [hordr]; rfl
    have hmt : findMainType order = t := by
      rw [hordr]
      simp [findMainType, findMainLoop, hpos]
    unfold generateCombinedSuggestionOrd
    rw [if_neg hl]
    dsimp only
    rw [horder1, if_pos rfl, hmt]
    unfold commitPhrase
    split
    · simp [List.append_assoc]
    · simp

  · rintro ⟨s1, hs1, s2, hs2, hne12⟩
    obtain ⟨c1, hc1⟩ := type_mem_tally individual s1 hs1
    obtain ⟨c2, hc2⟩ := type_mem_tally individual s2 hs2
    have h2 : 2 ≤ (tally individual).length :=
      two_keys_length (tally individual) s1.«Type» s2.«Type» c1 c2 hc1 hc2 hne12
    have hno : order.length ≠ 1 := by
      have hle := hord.length_eq
      omega
    unfold generateCombinedSuggestionOrd
    rw [if_neg hl]
    dsimp only
    rw [if_neg hno]
    split
    · simp [List.append_assoc]
    · simp

/-- Witness for C4: two files of mixed types get the combined message
`update multiple files (2 files)`. -/
theorem combined_message_phrase_witness :
    (generateCombinedSuggestionOrd
        [⟨str "m", str "feat"⟩, ⟨str "n", str "fix"⟩]
        (tally [⟨str "m", str "feat"⟩, ⟨str "n", str "fix"⟩])).Message =
      str "update multiple files (2 files)" := by
  have h := (combined_message_phrase
      [⟨str "m", str "feat"⟩, ⟨str "n", str "fix"⟩]
      (tally [⟨str "m", str "feat"⟩, ⟨str "n", str "fix"⟩])
      (str "feat") (by decide) (List.Perm.refl _)).2
    ⟨⟨str "m", str "feat"⟩, by decide, ⟨str "n", str "fix"⟩, by decide, by decide⟩
  rw [h]
  decide

end CommitHelper

namespace CommitHelper

/-- Unfolding `maxCountOf` over a cons cell. -/
theorem maxCountOf_cons2 (t : Str) (k : Nat) (ks : List (Str × Nat)) :
    maxCountOf ((t, k) :: ks) = max k (maxCountOf ks) := rfl

/-- The maximal count is invariant under permutation of the enumeration. -/
theorem maxCountOf_perm {l1 l2 : List (Str × Nat)} (h : l1.Perm l2) :
    maxCountOf l1 = maxCountOf l2 := by
  induction h with
  | nil => rfl
  | cons x h ih =>
    obtain ⟨t, k⟩ := x
    rw [maxCountOf_cons2, maxCountOf_cons2, ih]
  | swap x y l =>
    obtain ⟨tx, kx⟩ := x
    obtain ⟨ty, ky⟩ := y
    rw [maxCountOf_cons2, maxCountOf_cons2, maxCountOf_cons2, maxCountOf_cons2]
    rw [Nat.max_left_comm]
  | trans h1 h2 ih1 ih2 => exact ih1.trans ih2

/-- Every entry's count is bounded by the maximal count. -/
theorem mem_le_maxCountOf (ks : List (Str × Nat)) (p : Str × Nat) (h : p ∈ ks) :
    p.2 ≤ maxCountOf ks := by
  induction ks with
  | nil => simp at h
  | cons q ks ih =>
    obtain ⟨t, k⟩ := q
    rw [maxCountOf_cons2]
    rcases List.mem_cons.mp h with heq | hmem
    · rw [heq]
      exact Nat.le_max_left _ _
    · exact Nat.le_trans (ih hmem) (Nat.le_max_right _ _)

/-- The selection loop never moves when the running count already dominates
the whole enumeration. -/
theorem findMainLoop_stay (order : List (Str × Nat)) :
    ∀ (m : Str) (c : Nat), maxCountOf order ≤ c → findMainLoop order m c = (m, c) := by
  induction order with
  | nil => intro m c _; rfl
  | cons p rest ih =>
    intro m c h
    obtain ⟨t, k⟩ := p
    rw [maxCountOf_cons2] at h
    obtain ⟨h1, h2⟩ := Nat.max_le.mp h
    unfold findMainLoop
    rw [if_neg (by omega)]
    exact ih m c h2

/-- When the running count is beaten somewhere in the enumeration, the loop
selects exactly the first entry attaining the maximal count. -/
theorem findMainLoop_firstmax (order : List (Str × Nat)) :
    ∀ (m : Str) (c : Nat), c < maxCountOf order →
      List.find? (fun p => p.2 == maxCountOf order) order =
        some ((findMainLoop order m c).1, maxCountOf order) := by
  induction order with
  | nil => intro m c h; simp [maxCountOf] at h
  | cons p rest ih =>
    intro m c h
    obtain ⟨t, k⟩ := p
    by_cases hk : maxCountOf rest ≤ k
    · have hmax : maxCountOf ((t, k) :: rest) = k := by
        rw [maxCountOf_cons2]
        exact Nat.max_eq_left hk
      rw [hmax] at h ⊢
      have hfind : List.find? (fun p => p.2 == k) ((t, k) :: rest) = some (t, k) :=
        List.find?_cons_of_pos _ (by simp)
      rw [hfind]
      unfold findMainLoop
      rw [if_pos (by omega)]
      rw [findMainLoop_stay rest t k hk]
    · have hlt : k < maxCountOf rest := by omega
      have hmax : maxCountOf ((t, k) :: rest) = maxCountOf rest := by
        rw [maxCountOf_cons2]
        exact Nat.max_eq_right (Nat.le_of_lt hlt)
      rw [hmax] at h ⊢
      have hbeq : (k == maxCountOf rest) = false := by
        simp only [beq_eq_false_iff_ne]
        omega
      rw [List.find?_cons]
      simp only [hbeq]
      unfold findMainLoop
      by_cases hc : k > c
      · rw [if_pos hc]
        exact ih t k hlt
      · rw [if_neg hc]
        exact ih m c h

end CommitHelper

namespace CommitHelper

/-- Tally increments keep every count at least 1. -/
theorem tallyInc_pos : ∀ (acc : List (Str × Nat)) (t : Str),
    (∀ p ∈ acc, 1 ≤ p.2) → ∀ p ∈ tallyInc acc t, 1 ≤ p.2 := by
  intro acc
  induction acc with
  | nil =>
    intro t _ p hp
    simp [tallyInc] at hp
    simp [hp]
  | cons q rest ih =>
    intro t h p hp
    obtain ⟨k, c0⟩ := q
    by_cases hk : k = t
    · subst hk
      simp only [tallyInc, if_pos rfl] at hp
      rcases List.mem_cons.mp hp with heq | hmem
      · subst heq
        simp
      · exact h p (List.mem_cons.mpr (Or.inr hmem))
    · simp only [tallyInc, if_neg hk] at hp
      rcases List.mem_cons.mp hp with heq | hmem
      · subst heq
        exact h (k, c0) (List.mem_cons.mpr (Or.inl rfl))
      · exact ih t (fun q hq => h q (List.mem_cons.mpr (Or.inr hq))) p hmem

/-- Worker: all counts in a tally fold stay at least 1. -/
theorem tally_pos_aux : ∀ (l : List CommitSuggestion) (acc : List (Str × Nat)),
    (∀ p ∈ acc, 1 ≤ p.2) →
    ∀ p ∈ l.foldl (fun a s => tallyInc a s.«Type») acc, 1 ≤ p.2 := by
  intro l
  induction l with
  | nil => intro acc h; simpa using h
  | cons x l ih =>
    intro acc h
    simp only [List.foldl_cons]
    exact ih _ (tallyInc_pos acc x.«Type» h)

/-- Every count in the `typeCounts` map is at least 1. -/
theorem tally_pos (l : List CommitSuggestion) : ∀ p ∈ tally l, 1 ≤ p.2 :=
  tally_pos_aux l [] (by simp)

/-- A tally increment never yields the empty map. -/
theorem tallyInc_ne_nil (acc : List (Str × Nat)) (t : Str) : tallyInc acc t ≠ [] := by
  match acc with
  | [] => simp [tallyInc]
  | (k, c) :: rest =>
    simp only [tallyInc]
    split <;> simp

/-- Folding suggestions onto a non-empty tally keeps it non-empty. -/
theorem tally_foldl_ne_nil : ∀ (l : List CommitSuggestion) (acc : List (Str × Nat)),
    acc ≠ [] → l.foldl (fun a s => tallyInc a s.«Type») acc ≠ [] := by
  intro l
  induction l with
  | nil => intro acc h; simpa using h
  | cons x l ih =>
    intro acc _
    simp only [List.foldl_cons]
    exact ih _ (tallyInc_ne_nil acc x.«Type»)

/-- A non-empty changeset yields a non-empty `typeCounts` map. -/
theorem tally_ne_nil (l : List CommitSuggestion) (h : l ≠ []) : tally l ≠ [] := by
  match l with
  | [] => exact absurd rfl h
  | x :: l =>
    unfold tally
    simp only [List.foldl_cons]
    exact tally_foldl_ne_nil l _ (tallyInc_ne_nil [] x.«Type»)

/-- Claim C5 (corrected): for every enumeration `order` of the `typeCounts`
map of a non-empty changeset, the selected combined type carries the maximal
occurrence count, and it is precisely the first entry of the enumeration
attaining that maximum.  So ties are broken by the map iteration order,
which Go randomizes — not deterministically by the insertion order of the
input, as the counterexample shows. -/
theorem combined_type_max_count (individual : List CommitSuggestion)
    (order : List (Str × Nat))
    (hne : individual ≠ [])
    (hord : order.Perm (tally individual)) :
    (findMainType order, maxCountOf (tally individual)) ∈ tally individual ∧
    (∀ p ∈ tally individual, p.2 ≤ maxCountOf (tally individual)) ∧
    List.find? (fun p => p.2 == maxCountOf (tally individual)) order =
      some (findMainType order, maxCountOf (tally individual)) ∧
    (generateCombinedSuggestionOrd individual order).«Type» = findMainType order := by
  have htn : tally individual ≠ [] := tally_ne_nil individual hne
  obtain ⟨p0, hp0⟩ := List.exists_mem_of_ne_nil _ htn
  have hpos0 : 1 ≤ p0.2 := tally_pos individual p0 hp0
  have hmax1 : 1 ≤ maxCountOf (tally individual) :=
    le_trans hpos0 (mem_le_maxCountOf _ p0 hp0)
  have hpm : maxCountOf order = maxCountOf (tally individual) := maxCountOf_perm hord
  have h0 : 0 < maxCountOf order := by omega
  have hfind := findMainLoop_firstmax order [] 0 h0
  rw [hpm] at hfind
  refine ⟨?_, fun p hp => mem_le_maxCountOf _ p hp, hfind, ?_⟩
  · have hmem := List.mem_of_find?_eq_some hfind
    exact (hord.mem_iff).mp hmem
  · have hl : individual.length ≠ 0 := by
      simpa using fun hh => hne (List.length_eq_zero.mp hh)
    unfold generateCombinedSuggestionOrd
    rw [if_neg hl]

/-- Witness for C5: for a singleton changeset of type `feat` with its own
tally as enumeration, the selected type and maximal count form an entry of
the tally. -/
theorem combined_type_max_count_witness :
    (findMainType (tally [⟨str "m", str "feat"⟩]),
      maxCountOf (tally [⟨str "m", str "feat"⟩])) ∈ tally [⟨str "m", str "feat"⟩] :=
  (combined_type_max_count [⟨str "m", str "feat"⟩] (tally [⟨str "m", str "feat"⟩])
    (by decide) (List.Perm.refl _)).1

/-- Counterexample for C5 as stated: a feat-then-fix changeset tallies with
`feat` first, yet the enumeration listing `fix` first is a legal iteration
order of the map, and under it the tie resolves to `fix` — the tie-break is
not determined by the tally's insertion order. -/
theorem combined_type_order_dependent_cex :
    tally [⟨str "m", str "feat"⟩, ⟨str "n", str "fix"⟩] =
      [(str "feat", 1), (str "fix", 1)] ∧
    List.Perm [(str "fix", 1), (str "feat", 1)]
      (tally [⟨str "m", str "feat"⟩, ⟨str "n", str "fix"⟩]) ∧
    (generateCombinedSuggestionOrd [⟨str "m", str "feat"⟩, ⟨str "n", str "fix"⟩]
        [(str "fix", 1), (str "feat", 1)]).«Type» = str "fix" ∧
    str "fix" ≠ str "feat" := by
  refine ⟨by decide, ?_, by decide, by decide⟩
  rw [show tally [⟨str "m", str "feat"⟩, ⟨str "n", str "fix"⟩] =
      [(str "feat", 1), (str "fix", 1)] from by decide]
  exact List.Perm.swap _ _ _

end CommitHelper

namespace CommitHelper

/-- `takeWhile` over a block that satisfies the predicate, stopped by `c`. -/
theorem takeWhile_append_cons (p : Char → Bool) (t : Str) (c : Char) (r : Str)
    (ht : ∀ x ∈ t, p x = true) (hc : p c = false) :
    (t ++ c :: r).takeWhile p = t := by
  induction t with
  | nil => simp [List.takeWhile_cons, hc]
  | cons a t ih =>
    have ha : p a = true := ht a (by simp)
    simp only [List.cons_append, List.takeWhile_cons, ha, if_true]
    rw [ih (fun x hx => ht x (by simp [hx]))]

/-- `dropWhile` over a block that satisfies the predicate, stopped by `c`. -/
theorem dropWhile_append_cons (p : Char → Bool) (t : Str) (c : Char) (r : Str)
    (ht : ∀ x ∈ t, p x = true) (hc : p c = false) :
    (t ++ c :: r).dropWhile p = c :: r := by
  induction t with
  | nil => simp [List.dropWhile_cons, hc]
  | cons a t ih =>
    have ha : p a = true := ht a (by simp)
    simp only [List.cons_append, List.dropWhile_cons, ha, if_true]
    exact ih (fun x hx => ht x (by simp [hx]))

/-- Character membership distributes over append. -/
theorem hasChar_append (a b : Str) (c : Char) :
    hasChar (a ++ b) c = (hasChar a c || hasChar b c) := by
  simp [hasChar, List.any_append]

/-- Claim C8 (confirmed): for a modified file with exactly one detected
function and a commit type other than docs/test (the spec's scenario), the
composed message is `update <fn> function`, and wrapping that message as
`type(scope): subject` and re-parsing it recovers exactly the composed
message as the subject. -/
theorem compose_parse_roundtrip (file : Str) (diff : DiffInfo)
    (fn t sc commitType : Str)
    (hfn : diff.Functions = [fn])
    (hnl : hasChar fn '\n' = false)
    (hd : commitType ≠ str "docs")
    (hT : commitType ≠ str "test")
    (ht1 : t ≠ [])
    (ht2 : ∀ c ∈ t, isAlphaB c = true)
    (hs1 : sc ≠ [])
    (hs2 : ∀ c ∈ sc, (c == ')') = false) :
    generateSmartCommitMessage file (str "M") diff commitType =
      str "update " ++ fn ++ str " function" ∧
    parseCommitMessage (t ++ str "(" ++ sc ++ str "): " ++
        (str "update " ++ fn ++ str " function")) =
      (t, sc, str "update " ++ fn ++ str " function") := by
  have h1 : ¬ (str "M" = str "A") := by decide
  have h2 : ¬ (str "M" = str "D") := by decide
  have hmsg : generateSmartCommitMessage file (str "M") diff commitType =
      str "update " ++ fn ++ str " function" := by
    simp [generateSmartCommitMessage, h1, h2, hd, hT, hfn]
  refine ⟨hmsg, ?_⟩
  set msg := str "update " ++ fn ++ str " function" with hmsgdef
  have cu : str "update " = 'u' :: str "pdate " := rfl
  have cmsg : msg = 'u' :: (str "pdate " ++ fn ++ str " function") := by
    rw [hmsgdef, cu]
    simp [List.cons_append]
  have c1 : str "(" = ['('] := rfl
  have c2 : str "): " = ')' :: ':' :: ' ' :: ([] : Str) := rfl
  have hS : t ++ str "(" ++ sc ++ str "): " ++ msg =
      t ++ '(' :: (sc ++ ')' :: ':' :: ' ' :: msg) := by
    rw [c1, c2]
    simp [List.append_assoc]
  rw [hS]
  have hmsgE : msg.isEmpty = false := by rw [cmsg]; rfl
  have hmsgnl : hasChar msg '\n' = false := by
    rw [hmsgdef, hasChar_append, hasChar_append, hnl]
    decide
  have hsp1 : isSpaceRe ' ' = true := by decide
  have hsp2 : isSpaceRe 'u' = false := by decide
  have hsp3 : isSpaceRe ':' = false := by decide
  have hsubj : subjMatch (' ' :: msg) = some msg := by
    have e1 : (' ' :: msg).takeWhile isSpaceRe = [' '] := by
      rw [cmsg]
      simp [List.takeWhile_cons, hsp1, hsp2]
    have e2 : (' ' :: msg).dropWhile isSpaceRe = msg := by
      rw [cmsg]
      simp [List.dropWhile_cons, hsp1, hsp2]
    unfold subjMatch
    simp [e1, e2, hmsgE, hmsgnl]
  have hafter : afterScope t sc (':' :: ' ' :: msg) = some (t, sc, msg) := by
    have hd1 : (':' :: ' ' :: msg).dropWhile isSpaceRe = ':' :: ' ' :: msg := by
      simp [List.dropWhile_cons, hsp3]
    unfold afterScope
    rw [hd1]
    dsimp only
    rw [if_pos rfl, hsubj]
    rfl
  have htw : (t ++ '(' :: (sc ++ ')' :: ':' :: ' ' :: msg)).takeWhile isAlphaB = t :=
    takeWhile_append_cons isAlphaB t '(' _ ht2 (by decide)
  have hdw : (t ++ '(' :: (sc ++ ')' :: ':' :: ' ' :: msg)).dropWhile isAlphaB =
      '(' :: (sc ++ ')' :: ':' :: ' ' :: msg) :=
    dropWhile_append_cons isAlphaB t '(' _ ht2 (by decide)
  have htE : t.isEmpty = false := by
    cases t with
    | nil => exact absurd rfl ht1
    | cons a b => rfl
  have hsw : (sc ++ ')' :: ':' :: ' ' :: msg).takeWhile (fun x => !(x == ')')) = sc :=
    takeWhile_append_cons _ sc ')' _ (fun x hx => by rw [hs2 x hx]; rfl) (by decide)
  have hsd : (sc ++ ')' :: ':' :: ' ' :: msg).dropWhile (fun x => !(x == ')')) =
      ')' :: ':' :: ' ' :: msg :=
    dropWhile_append_cons _ sc ')' _ (fun x hx => by rw [hs2 x hx]; rfl) (by decide)
  have hscE : sc.isEmpty = false := by
    cases sc with
    | nil => exact absurd rfl hs1
    | cons a b => rfl
  have hre : reMatch (t ++ '(' :: (sc ++ ')' :: ':' :: ' ' :: msg)) =
      some (t, sc, msg) := by
    unfold reMatch
    simp only [htw, hdw, htE, Bool.false_eq_true, if_false]
    rw [if_pos trivial]
    simp only [hsw, hsd, if_true]
    rw [if_neg (by rw [hscE]; exact Bool.false_ne_true)]
    exact hafter
  unfold parseCommitMessage
  rw [hre]

end CommitHelper

namespace CommitHelper

/-- Witness for C8: the composed message for a modified file whose diff
shows exactly the function `foo`, wrapped as `feat(core): ...`, re-parses to
the same subject. -/
theorem compose_parse_roundtrip_witness :
    generateSmartCommitMessage (str "a.go") (str "M")
        ⟨3, 0, [str "foo"], [], false, false⟩ (str "feat") =
      str "update " ++ str "foo" ++ str " function" ∧
    parseCommitMessage (str "feat" ++ str "(" ++ str "core" ++ str "): " ++
        (str "update " ++ str "foo" ++ str " function")) =
      (str "feat", str "core", str "update " ++ str "foo" ++ str " function") :=
  compose_parse_roundtrip (str "a.go") ⟨3, 0, [str "foo"], [], false, false⟩
    (str "foo") (str "feat") (str "core") (str "feat")
    (by decide) (by decide) (by decide) (by decide) (by decide) (by decide)
    (by decide) (by decide)

end CommitHelper

